import Mathlib

/-!
Verification development for the EmailForensicsStandalone header-analysis core.

The Python modules `email_core.py` and `ip_lookup.py` are shallowly embedded:
pure string processing is translated to functions over `List Char` / `String`,
`datetime` values become rational Unix seconds (`ℚ`), fallible operations
return `Option`, and calls into the Python standard library
(`email.utils.parsedate_to_datetime`, `datetime.strftime`) are abstracted as
explicit function parameters gathered in `DateLib`.

Regular-expression calls in the source are embedded as dedicated search
functions that reproduce `re.search` semantics (leftmost match, greedy /
lazy backtracking) for the concrete patterns appearing in the code.
-/

/-! ### Basic character and string helpers -/

/-- Python `\s` (ASCII range) and `str.strip` whitespace: space, tab,
newline, carriage return, vertical tab, form feed. -/
def isSpace (c : Char) : Bool :=
  c = ' ' || c = '\t' || c = '\n' || c = '\r' || c = '\x0b' || c = '\x0c'

/-- Python `str.strip`: drop leading and trailing whitespace. -/
def strip (l : List Char) : List Char :=
  ((l.dropWhile isSpace).reverse.dropWhile isSpace).reverse

/-- Lower-case a string character-wise (Python `str.lower` on ASCII). -/
def lowerStr (s : String) : String := String.mk (s.data.map Char.toLower)

/-- Numeric value of a digit string, Python `int("...")` on a run of digits. -/
def natOfDigits (l : List Char) : Nat :=
  l.foldl (fun n c => n * 10 + (c.toNat - '0'.toNat)) 0

/-! ### The message abstraction

`email.parser.Parser().parsestr` is standard-library code; its output, a
`Message`, is modelled as the ordered list of (name, value) header pairs it
holds.  `Message.get` returns the first case-insensitive match (the call
sites use default `''`), `Message.get_all` all matches in order. -/

abbrev Msg := List (String × String)

/-- Python `msg.get(name, '')`: first header whose name matches
case-insensitively, else the empty string. -/
def msgGet (m : Msg) (name : String) : String :=
  match m.find? (fun p => lowerStr p.1 = lowerStr name) with
  | some p => p.2
  | none => ""

/-- Python `msg.get_all(name, [])`: all values whose name matches
case-insensitively, in original order. -/
def msgGetAll (m : Msg) (name : String) : List String :=
  (m.filter (fun p => lowerStr p.1 = lowerStr name)).map Prod.snd

/-! ### Timestamp extraction: `re.search(r';\s*(.+)$', header)`

`re.search` (no DOTALL, no MULTILINE) finds the leftmost `;` after which the
remaining text matches `\s*(.+)$`: optional whitespace (which may include
newlines), then a non-empty newline-free run reaching the end of the string
(`$` also matches just before one trailing newline).  `\s*` is greedy, so the
group starts after the longest admissible whitespace prefix. -/

/-- Remove a single trailing newline, the positions where `$` can match. -/
def dollarTrim (l : List Char) : List Char :=
  if l.getLast? = some '\n' then l.dropLast else l

/-- Try group starts `k, k-1, ..., 0` (greedy `\s*`): the group is
`core.drop k` for the largest `k` making it non-empty and newline-free. -/
def tmGo : Nat → List Char → Option (List Char)
  | 0, core => if core ≠ [] ∧ '\n' ∉ core then some core else none
  | k + 1, core =>
    let r := core.drop (k + 1)
    if r ≠ [] ∧ '\n' ∉ r then some r else tmGo k core

/-- Match `\s*(.+)$` against the text following a `;`, returning the group. -/
def tailMatch (t : List Char) : Option (List Char) :=
  let core := dollarTrim t
  tmGo (core.takeWhile isSpace).length core

/-- Leftmost `;` whose tail matches `\s*(.+)$`; returns the group. -/
def searchTimeAux : List Char → Option (List Char)
  | [] => none
  | c :: rest =>
    if c = ';' then
      match tailMatch rest with
      | some g => some g
      | none => searchTimeAux rest
    else searchTimeAux rest

/-- The stripped timestamp text of a `Received` header, when the regex
`;\s*(.+)$` matches (`time_str = time_match.group(1).strip()`). -/
def relayTimeStr (header : String) : Option String :=
  (searchTimeAux header.data).map (fun g => String.mk (strip g))

/-! ### Latency header parsing: `EmailAnalyzer._parse_latency_header` -/

/-- Match `:MM:SS(?:\.(\d+))?` at the start of the list (the part of the
`HH:MM:SS` pattern following the hour digits); the fractional group is
present only when a `.` is followed by at least one digit. -/
def hmsTail : List Char → Option (Nat × Nat × Option (List Char))
  | ':' :: m1 :: m2 :: ':' :: s1 :: s2 :: rest =>
    if m1.isDigit && m2.isDigit && s1.isDigit && s2.isDigit then
      let frac := match rest with
        | '.' :: r2 =>
          let ds := r2.takeWhile Char.isDigit
          if ds = [] then none else some ds
        | _ => none
      some (natOfDigits [m1, m2], natOfDigits [s1, s2], frac)
    else none
  | _ => none

/-- Match `(\d{1,2}):(\d{2}):(\d{2})(?:\.(\d+))?` at the start of the list;
`\d{1,2}` is greedy, so a two-digit hour is attempted before a one-digit
hour. -/
def hmsAt : List Char → Option (Nat × Nat × Nat × Option (List Char))
  | [] => none
  | a :: rest =>
    if a.isDigit then
      match rest with
      | [] => none
      | b :: rest2 =>
        if b.isDigit then
          match hmsTail rest2 with
          | some msf => some (natOfDigits [a, b], msf)
          | none => (hmsTail rest).map (fun msf => (natOfDigits [a], msf))
        else (hmsTail rest).map (fun msf => (natOfDigits [a], msf))
    else none

/-- `re.search` for the `HH:MM:SS` pattern: leftmost position at which
`hmsAt` succeeds. -/
def searchHMS : List Char → Option (Nat × Nat × Nat × Option (List Char))
  | [] => none
  | c :: rest =>
    match hmsAt (c :: rest) with
    | some r => some r
    | none => searchHMS rest

/-- Match `(\d+)\.(\d+)` at the start of the list: a maximal digit run,
a dot, and a non-empty digit run. -/
def secFracAt (t : List Char) : Option (List Char × List Char) :=
  let ds := t.takeWhile Char.isDigit
  if ds = [] then none
  else
    match t.drop ds.length with
    | '.' :: r2 =>
      let fs := r2.takeWhile Char.isDigit
      if fs = [] then none else some (ds, fs)
    | _ => none

/-- `re.search(r'(\d+)\.(\d+)', ...)`: leftmost match. -/
def searchSecFrac : List Char → Option (List Char × List Char)
  | [] => none
  | c :: rest =>
    match secFracAt (c :: rest) with
    | some p => some p
    | none => searchSecFrac rest

/-- `re.search(r'(\d+)', ...)`: leftmost maximal digit run. -/
def searchIntRun : List Char → Option (List Char)
  | [] => none
  | c :: rest =>
    if c.isDigit then some ((c :: rest).takeWhile Char.isDigit)
    else searchIntRun rest

/-- Value of a fractional-part digit group: `int(frac) / 10 ** len(frac)`. -/
def fracVal (ds : List Char) : ℚ := (natOfDigits ds : ℚ) / ((10 : ℚ) ^ ds.length)

/-- `EmailAnalyzer._parse_latency_header`: try the `HH:MM:SS[.frac]`
pattern, then `seconds.frac`, then a bare integer (interpreted as
milliseconds when greater than 3600); `None` when nothing matches. -/
def parse_latency_header (s : String) : Option ℚ :=
  if s = "" then none
  else
    match searchHMS s.data with
    | some (h, m, sec, frac) =>
      some ((h : ℚ) * 3600 + (m : ℚ) * 60 + (sec : ℚ) +
        (match frac with | some ds => fracVal ds | none => 0))
    | none =>
      match searchSecFrac s.data with
      | some (ds, fs) => some ((natOfDigits ds : ℚ) + fracVal fs)
      | none =>
        match searchIntRun s.data with
        | some ds =>
          let n := natOfDigits ds
          if n > 3600 then some ((n : ℚ) / 1000) else some (n : ℚ)
        | none => none

example : parse_latency_header "01:02:03.500" = some (7447 / 2 : ℚ) := by
  have h : searchHMS ("01:02:03.500".data) = some (1, 2, 3, some ['5', '0', '0']) := by decide
  simp only [parse_latency_header, if_neg (by decide : ¬("01:02:03.500" : String) = ""), h]
  norm_num [fracVal, show natOfDigits ['5', '0', '0'] = 500 from by decide]

example : parse_latency_header "45000" = some 45 := by
  have h1 : searchHMS ("45000".data) = none := by decide
  have h2 : searchSecFrac ("45000".data) = none := by decide
  have h3 : searchIntRun ("45000".data) = some ['4', '5', '0', '0', '0'] := by decide
  simp only [parse_latency_header, if_neg (by decide : ¬("45000" : String) = ""), h1, h2, h3,
    show natOfDigits ['4', '5', '0', '0', '0'] = 45000 from by decide]
  norm_num

example : parse_latency_header "12.250" = some (49 / 4 : ℚ) := by
  have h1 : searchHMS ("12.250".data) = none := by decide
  have h2 : searchSecFrac ("12.250".data) = some (['1', '2'], ['2', '5', '0']) := by decide
  simp only [parse_latency_header, if_neg (by decide : ¬("12.250" : String) = ""), h1, h2]
  norm_num [fracVal, show natOfDigits ['1', '2'] = 12 from by decide,
    show natOfDigits ['2', '5', '0'] = 250 from by decide]

example : parse_latency_header "" = none := by decide
example : parse_latency_header "abc" = none := by decide

example : parse_latency_header "99.5 01:02:03" = some 3723 := by
  have h : searchHMS ("99.5 01:02:03".data) = some (1, 2, 3, none) := by decide
  simp only [parse_latency_header, if_neg (by decide : ¬("99.5 01:02:03" : String) = ""), h]
  norm_num

/-! ### Clause extraction: `re.search(r'from\s+(.+?)\s+by', ...)` and friends

The three clause patterns of `_parse_received_header` share the shape
`kw\s+(.+?)\s+(alt1|alt2|...)` (flags `IGNORECASE | DOTALL`, so `.` also
matches newlines and keywords compare case-insensitively; for the `by` and
`with` patterns the final alternation includes `$`).  `re.search` semantics:
leftmost occurrence of the keyword wins; the first `\s+` is greedy (longest
run first), the group `(.+?)` is lazy (shortest first); the second `\s+`
followed by an alternative can only match at the maximal whitespace run,
since no alternative starts with a whitespace character and `$` also matches
at the end of that run. -/

/-- Case-insensitive test that `pat` is a prefix of `t`. -/
def ciStarts : List Char → List Char → Bool
  | [], _ => true
  | _ :: _, [] => false
  | a :: as, b :: bs => (a.toLower = b.toLower) && ciStarts as bs

/-- Does one of the stop alternatives (or, when `endOk`, the `$` anchor)
match at `t`? -/
def stopHere (stops : List (List Char)) (endOk : Bool) (t : List Char) : Bool :=
  stops.any (fun p => ciStarts p t) || (endOk && t.isEmpty)

/-- Match `\s+(alt…)` at `t`: at least one whitespace character, then a stop
alternative after the maximal whitespace run. -/
def afterWsStop (stops : List (List Char)) (endOk : Bool) (t : List Char) : Bool :=
  match t with
  | [] => false
  | c :: rest => isSpace c && stopHere stops endOk ((c :: rest).dropWhile isSpace)

/-- Lazy `(.+?)` expansion: grow the group one character at a time (shortest
first), succeeding as soon as `\s+(alt…)` matches after it.  `acc` holds the
group read so far, reversed. -/
def growGroup (stops : List (List Char)) (endOk : Bool) :
    List Char → List Char → Option (List Char)
  | _, [] => none
  | acc, c :: rest =>
    if afterWsStop stops endOk rest then some (c :: acc).reverse
    else growGroup stops endOk (c :: acc) rest

/-- Greedy first `\s+`: try whitespace-prefix lengths `w, w-1, …, 1`. -/
def tryWs (stops : List (List Char)) (endOk : Bool) (t : List Char) :
    Nat → Option (List Char)
  | 0 => none
  | w + 1 =>
    match growGroup stops endOk [] (t.drop (w + 1)) with
    | some g => some g
    | none => tryWs stops endOk t w

/-- Match `\s+(.+?)\s+(alt…)` at `t` (the text right after the keyword). -/
def clauseAt (stops : List (List Char)) (endOk : Bool) (t : List Char) :
    Option (List Char) :=
  let m := (t.takeWhile isSpace).length
  if m = 0 then none else tryWs stops endOk t m

/-- `re.search` for a whole clause pattern: leftmost keyword occurrence at
which the rest of the pattern matches; returns group 1. -/
def clauseSearch (kw : List Char) (stops : List (List Char)) (endOk : Bool) :
    List Char → Option (List Char)
  | [] => none
  | c :: rest =>
    if ciStarts kw (c :: rest) then
      match clauseAt stops endOk ((c :: rest).drop kw.length) with
      | some g => some g
      | none => clauseSearch kw stops endOk rest
    else clauseSearch kw stops endOk rest

example : clauseSearch ("from".data) [("by".data)] false ("from mail.a.com (1.2.3.4) by mx.b.com; date".data)
    = some ("mail.a.com (1.2.3.4)".data) := by decide
example : clauseSearch ("by".data) [("with".data), ("id".data), (";".data)] true
    ("from a by mx.b.com with ESMTP; date".data) = some ("mx.b.com".data) := by decide

/-! ### IP literal extraction: `EmailAnalyzer._extract_ip_from_text`

The IPv4 pattern is `(?:(?:25[0-5]|2[0-4][0-9]|[01]?[0-9][0-9]?)\.){3}(?:…)`;
the (simplified) IPv6 pattern is `(?:[0-9a-fA-F]{1,4}:){7}[0-9a-fA-F]{1,4}`.
Both are embedded with full alternation/greediness backtracking order. -/

/-- Candidate matches of `[01]?[0-9][0-9]?` at `t`, in regex backtracking
order (each optional element greedy). -/
def smallCands (t : List Char) : List (List Char) :=
  match t with
  | [] => []
  | a :: rest =>
    if ¬ a.isDigit then []
    else
      let two := match rest with
        | b :: _ => if b.isDigit then [[a, b]] else []
        | [] => []
      let three := match rest with
        | b :: c :: _ =>
          if (a = '0' ∨ a = '1') ∧ b.isDigit ∧ c.isDigit then [[a, b, c]] else []
        | _ => []
      if a = '0' ∨ a = '1' then three ++ two ++ two ++ [[a]]
      else two ++ [[a]]

/-- Candidate matches of `25[0-5]|2[0-4][0-9]|[01]?[0-9][0-9]?` at `t`, in
alternation order. -/
def octetCands (t : List Char) : List (List Char) :=
  (match t with
   | '2' :: '5' :: c :: _ => if '0' ≤ c ∧ c ≤ '5' then [['2', '5', c]] else []
   | _ => []) ++
  (match t with
   | '2' :: c :: d :: _ => if ('0' ≤ c ∧ c ≤ '4') ∧ d.isDigit then [['2', c, d]] else []
   | _ => []) ++
  smallCands t

/-- Backtracking match of an octet followed by `n` further dot-separated
octets at `t`: candidates are tried in alternation order, the first full
match wins. -/
def ipv4Go : Nat → List Char → Option (List Char)
  | 0, t => (octetCands t).head?
  | n + 1, t =>
    (octetCands t).findSome? fun c =>
      match t.drop c.length with
      | '.' :: r => (ipv4Go n r).map (fun m => c ++ '.' :: m)
      | _ => none

/-- `re.search` for the IPv4 pattern: leftmost position with a full match. -/
def searchIPv4 : List Char → Option (List Char)
  | [] => none
  | c :: rest =>
    match ipv4Go 3 (c :: rest) with
    | some m => some m
    | none => searchIPv4 rest

/-- Is `c` one of `[0-9a-fA-F]`? -/
def isHexChar (c : Char) : Bool :=
  c.isDigit || ('a' ≤ c ∧ c ≤ 'f') || ('A' ≤ c ∧ c ≤ 'F')

/-- Candidate matches of `[0-9a-fA-F]{1,4}` at `t`, greedy (longest first). -/
def hexCands (t : List Char) : List (List Char) :=
  let run := t.takeWhile isHexChar
  (List.range (min 4 run.length)).reverse.map (fun k => run.take (k + 1))

/-- Backtracking match of a hex group followed by `n` further
colon-separated hex groups at `t`. -/
def ipv6Go : Nat → List Char → Option (List Char)
  | 0, t => (hexCands t).head?
  | n + 1, t =>
    (hexCands t).findSome? fun c =>
      match t.drop c.length with
      | ':' :: r => (ipv6Go n r).map (fun m => c ++ ':' :: m)
      | _ => none

/-- `re.search` for the simplified IPv6 pattern. -/
def searchIPv6 : List Char → Option (List Char)
  | [] => none
  | c :: rest =>
    match ipv6Go 7 (c :: rest) with
    | some m => some m
    | none => searchIPv6 rest

/-- `EmailAnalyzer._extract_ip_from_text`: first IPv4 literal, then first
IPv6 literal, else the empty string. -/
def extract_ip_from_text (s : String) : String :=
  match searchIPv4 s.data with
  | some m => String.mk m
  | none =>
    match searchIPv6 s.data with
    | some m => String.mk m
    | none => ""

example : extract_ip_from_text "mail.a.com (1234.5.6.7)" = "234.5.6.7" := by decide
example : extract_ip_from_text "host.example" = "" := by decide

/-! ### The relay data model: `EmailAnalyzer._parse_received_header` -/

/-- Python standard-library date functions used by `_parse_received_header`,
abstracted as parameters: `parsedate` models `email.utils.parsedate_to_datetime`
(`none` models an exception / unparsable date), with datetime values as
rational Unix seconds; `strftime` models
`datetime.strftime('%m/%d/%Y %I:%M:%S %p')` on such a value. -/
structure DateLib where
  parsedate : String → Option ℚ
  strftime : ℚ → String

/-- One relay hop, the dictionary built by `_parse_received_header`. -/
structure Relay where
  hop : Nat
  fromText : String
  byText : String
  withText : String
  time : String
  time_dt : Option ℚ
  delay : ℚ
  blacklist : Bool
  ip : String
deriving DecidableEq

/-- The `time` field: formatted timestamp when the extracted text parses,
the raw (stripped) text when parsing raises, `''` when the regex has no
match. -/
def relayTime (L : DateLib) (header : String) : String :=
  match relayTimeStr header with
  | none => ""
  | some ts =>
    match L.parsedate ts with
    | some t => L.strftime t
    | none => ts

/-- The `time_dt` field: the parsed timestamp, `none` when the regex has no
match or parsing raises. -/
def relayTimeDt (L : DateLib) (header : String) : Option ℚ :=
  (relayTimeStr header).bind L.parsedate

/-- `EmailAnalyzer._parse_received_header`. -/
def parse_received_header (L : DateLib) (header : String) (hop : Nat) : Relay :=
  let fromT := ((clauseSearch ("from".data) [("by".data)] false header.data).map
    (fun g => String.mk (strip g))).getD ""
  { hop := hop
  , fromText := fromT
  , byText := ((clauseSearch ("by".data) [("with".data), ("id".data), (";".data)] true
      header.data).map (fun g => String.mk (strip g))).getD ""
  , withText := ((clauseSearch ("with".data) [("id".data), (";".data)] true
      header.data).map (fun g => String.mk (strip g))).getD ""
  , time := relayTime L header
  , time_dt := relayTimeDt L header
  , delay := 0
  , blacklist := true
  , ip := extract_ip_from_text fromT }

/-! ### Relay chain construction: `EmailAnalyzer._process_relays` -/

/-- The loop `for idx, rec in enumerate(reversed(received_list), 1)` applied
to an already-reversed list, starting at index `idx`. -/
def numberFrom (L : DateLib) : Nat → List String → List Relay
  | _, [] => []
  | idx, h :: rest => parse_received_header L h idx :: numberFrom L (idx + 1) rest

/-- The renumbering loop `for idx, r in enumerate(relays, 1): r['hop'] = idx`. -/
def renumberFrom : Nat → List Relay → List Relay
  | _, [] => []
  | idx, r :: rest => { r with hop := idx } :: renumberFrom (idx + 1) rest

/-- The guard `len(relays) > 1 and relays[0]['time_dt'] and relays[1]['time_dt']`
followed by `relays[1]['time_dt'] < relays[0]['time_dt']` (a `datetime` is
always truthy, so the truthiness test is exactly a not-`None` test). -/
def needsReverse : List Relay → Bool
  | r0 :: r1 :: _ =>
    match r0.time_dt, r1.time_dt with
    | some t0, some t1 => decide (t1 < t0)
    | _, _ => false
  | _ => false

/-- The relay list right after initial numbering, before the reorder check:
`for idx, rec in enumerate(reversed(received_list), 1)`. -/
def initialRelays (L : DateLib) (m : Msg) : List Relay :=
  numberFrom L 1 (msgGetAll m "Received").reverse

/-- `EmailAnalyzer._process_relays`: number hops over the reversed header
list, then apply the single reorder check. -/
def process_relays (L : DateLib) (m : Msg) : List Relay :=
  let relays := initialRelays L m
  if needsReverse relays then renumberFrom 1 relays.reverse else relays

/-! ### Delay computation: `EmailAnalyzer._calculate_delays` -/

/-- The loop `for i in range(1, len(relays))`: `prev` is the previous hop's
`time_dt`; when both timestamps are present the current hop's delay becomes
`max(delta, 0)` and is added to the running total. -/
def computeRelayDelays : Option ℚ → List Relay → List Relay × ℚ
  | _, [] => ([], 0)
  | prev, r :: rs =>
    match prev, r.time_dt with
    | some tp, some tc =>
      let d := max (tc - tp) 0
      let p := computeRelayDelays r.time_dt rs
      ({ r with delay := d } :: p.1, d + p.2)
    | _, _ =>
      let p := computeRelayDelays r.time_dt rs
      (r :: p.1, p.2)

/-- The fields of the analysis result written by `_calculate_delays`. -/
structure DelayResult where
  relays : List Relay
  total_delay : ℚ
  delay_source : String
deriving DecidableEq

/-- `EmailAnalyzer._calculate_delays`: when the Exchange latency header is
present and parses, use it verbatim and return early (leaving the per-hop
delays untouched); otherwise derive per-hop delays and their sum from the
relay timestamps. -/
def calculate_delays (m : Msg) (relays : List Relay) : DelayResult :=
  let latency := msgGet m "X-MS-Exchange-Transport-EndToEndLatency"
  if latency ≠ "" then
    match parse_latency_header latency with
    | some d => ⟨relays, d, "X-MS-Exchange-Transport-EndToEndLatency"⟩
    | none =>
      let p := computeRelayDelays none relays
      ⟨p.1, p.2, "Calculated from Received headers"⟩
  else
    let p := computeRelayDelays none relays
    ⟨p.1, p.2, "Calculated from Received headers"⟩

/-! ### Domain extraction: `EmailAnalyzer._extract_domains` -/

/-- Model of the standard-library `email.utils.parseaddr(s)[1]` for
comment-free inputs: the text between the first pair of angle brackets when
one is present, otherwise the whole string stripped of whitespace. -/
def parseaddrAddr (s : String) : String :=
  match s.data.dropWhile (fun c => c ≠ '<') with
  | _ :: rest => String.mk (rest.takeWhile (fun c => c ≠ '>'))
  | [] => String.mk (strip s.data)

/-- Python `addr.split('@')[-1]`: the text after the last occurrence of the
character (the whole list when the character is absent). -/
def afterLastChar (ch : Char) (l : List Char) : List Char :=
  (l.reverse.takeWhile (fun c => c ≠ ch)).reverse

/-- One arm of `_extract_domains`: empty header or an address without `@`
yields `''`, otherwise the text after the last `@` of the parsed address. -/
def extractDomainFrom (headerVal : String) : String :=
  if headerVal = "" then ""
  else
    let addr := parseaddrAddr headerVal
    if '@' ∈ addr.data then String.mk (afterLastChar '@' addr.data) else ""

/-- `EmailAnalyzer._extract_domains`. -/
def extract_domains (m : Msg) : String × String :=
  (extractDomainFrom (msgGet m "From"), extractDomainFrom (msgGet m "Return-Path"))

/-! ### Stored headers: `result.headers = dict(msg.items())` -/

/-- Python `dict` insertion: replace the value of an existing key in place
(a dict never holds a duplicate key, so at most the first match is
replaced), else append the new pair at the end. -/
def dictInsert : List (String × String) → String → String → List (String × String)
  | [], k, v => [(k, v)]
  | p :: rest, k, v => if p.1 = k then (k, v) :: rest else p :: dictInsert rest k v

/-- `dict(msg.items())` in `EmailAnalyzer.analyze`. -/
def dictOfPairs (l : List (String × String)) : List (String × String) :=
  l.foldl (fun m p => dictInsert m p.1 p.2) []

/-- Dictionary lookup: the value at the first entry whose key matches. -/
def dictLookup : List (String × String) → String → Option String
  | [], _ => none
  | p :: rest, k => if p.1 = k then some p.2 else dictLookup rest k

/-! ### Blacklist checking: `BlacklistChecker` in `ip_lookup.py` -/

/-- Outcome of one `dns.resolver.resolve` call, as discriminated by the
`except` clauses of `_check_single_blacklist` (dnspython raises `NXDOMAIN`,
`NoAnswer`, `Timeout`, or some other `DNSException` such as
`NoNameservers` on SERVFAIL or a malformed response). -/
inductive DnsOutcome where
  | answer
  | nxdomain
  | noAnswer
  | timeout
  | otherDnsError
deriving DecidableEq

/-- `BlacklistChecker._check_single_blacklist`: `True` on an answer, `False`
on NXDOMAIN (caught first), `None` on every other DNS failure. -/
def check_single_blacklist : DnsOutcome → Option Bool
  | .answer => some true
  | .nxdomain => some false
  | .noAnswer => none
  | .timeout => none
  | .otherDnsError => none

/-- `BlacklistChecker.BLACKLISTS`: the fixed (zone, display name) list. -/
def BLACKLISTS : List (String × String) :=
  [ ("zen.spamhaus.org", "Spamhaus ZEN")
  , ("b.barracudacentral.org", "Barracuda")
  , ("bl.spamcop.net", "SpamCop")
  , ("dnsbl.sorbs.net", "SORBS")
  , ("cbl.abuseat.org", "CBL")
  , ("psbl.surriel.com", "PSBL")
  , ("all.s5h.net", "S5H")
  , ("ix.dnsbl.manitu.net", "Manitu")
  , ("dnsbl-1.uceprotect.net", "UCEPROTECT-1")
  , ("dul.dnsbl.sorbs.net", "SORBS DUL") ]

/-- `BlacklistChecker.check_ip`: empty result for a non-public address,
otherwise one tri-state entry per configured zone; `outcomes` gives the DNS
outcome of the query against each zone. -/
def check_ip (validPublic : Bool) (outcomes : String → DnsOutcome) :
    List (String × Option Bool) :=
  if validPublic then
    BLACKLISTS.map (fun p => (p.2, check_single_blacklist (outcomes p.1)))
  else []

/-! ### Geolocation caching: `IPLookupService` in `ip_lookup.py` -/

/-- A cached geolocation payload (a JSON object, opaque here). -/
abbrev GeoData := List (String × String)

/-- The hard-coded expiry `7 * 24 * 3600` seconds in `_get_cached_ip_info`. -/
def cacheExpirySeconds : ℚ := 7 * 24 * 3600

/-- `IPLookupService._get_cached_ip_info`: `entry` is the parsed cache file
for the queried IP (`none` when the file is missing or unreadable), paired
with its `_cached_at` write timestamp (`data.get('_cached_at', 0)`); the
data is returned only while `time.time() - cached_at < 7 * 24 * 3600`. -/
def get_cached_ip_info (now : ℚ) (entry : Option (ℚ × GeoData)) : Option GeoData :=
  match entry with
  | some e => if now - e.1 < cacheExpirySeconds then some e.2 else none
  | none => none

/-- Which path `IPLookupService.get_ip_info` takes for one invocation. -/
inductive IpLookupStep where
  | invalidOrPrivate
  | fromCache (d : GeoData)
  | freshLookup
deriving DecidableEq

/-- The control flow of one `get_ip_info` body invocation: reject invalid or
private addresses, serve a truthy cache hit, otherwise attempt a fresh
lookup (API call with fallbacks, abstracted as `freshLookup`). -/
def get_ip_info_route (validIp privateIp : Bool) (now : ℚ)
    (entry : Option (ℚ × GeoData)) : IpLookupStep :=
  if !validIp || privateIp then .invalidOrPrivate
  else
    match get_cached_ip_info now entry with
    | some d => if d ≠ [] then .fromCache d else .freshLookup
    | none => .freshLookup

/-! ## Helper lemmas about the relay pipeline -/

theorem parse_received_header_hop (L : DateLib) (h : String) (k : Nat) :
    (parse_received_header L h k).hop = k := rfl

theorem parse_received_header_blacklist (L : DateLib) (h : String) (k : Nat) :
    (parse_received_header L h k).blacklist = true := rfl

theorem parse_received_header_delay (L : DateLib) (h : String) (k : Nat) :
    (parse_received_header L h k).delay = 0 := rfl

theorem parse_received_header_time_dt (L : DateLib) (h : String) (k : Nat) :
    (parse_received_header L h k).time_dt = relayTimeDt L h := rfl

theorem parse_received_header_time (L : DateLib) (h : String) (k : Nat) :
    (parse_received_header L h k).time = relayTime L h := rfl

theorem numberFrom_length (L : DateLib) :
    ∀ (i : Nat) (l : List String), (numberFrom L i l).length = l.length := by
  intro i l
  induction l generalizing i with
  | nil => rfl
  | cons h t ih => simp [numberFrom, ih]

theorem numberFrom_map_hop (L : DateLib) :
    ∀ (i : Nat) (l : List String),
      (numberFrom L i l).map Relay.hop = List.range' i l.length := by
  intro i l
  induction l generalizing i with
  | nil => rfl
  | cons h t ih =>
    simp [numberFrom, List.range'_succ, parse_received_header_hop, ih]

theorem renumberFrom_length :
    ∀ (i : Nat) (l : List Relay), (renumberFrom i l).length = l.length := by
  intro i l
  induction l generalizing i with
  | nil => rfl
  | cons h t ih => simp [renumberFrom, ih]

theorem renumberFrom_map_hop :
    ∀ (i : Nat) (l : List Relay),
      (renumberFrom i l).map Relay.hop = List.range' i l.length := by
  intro i l
  induction l generalizing i with
  | nil => rfl
  | cons h t ih => simp [renumberFrom, List.range'_succ, ih]

theorem numberFrom_blacklist (L : DateLib) :
    ∀ (i : Nat) (l : List String) (r : Relay),
      r ∈ numberFrom L i l → r.blacklist = true := by
  intro i l
  induction l generalizing i with
  | nil => intro r hr; cases hr
  | cons h t ih =>
    intro r hr
    rcases List.mem_cons.mp hr with rfl | hr
    · exact parse_received_header_blacklist L h i
    · exact ih (i + 1) r hr

theorem numberFrom_delay_zero (L : DateLib) :
    ∀ (i : Nat) (l : List String) (r : Relay),
      r ∈ numberFrom L i l → r.delay = 0 := by
  intro i l
  induction l generalizing i with
  | nil => intro r hr; cases hr
  | cons h t ih =>
    intro r hr
    rcases List.mem_cons.mp hr with rfl | hr
    · exact parse_received_header_delay L h i
    · exact ih (i + 1) r hr

theorem renumberFrom_blacklist :
    ∀ (i : Nat) (l : List Relay),
      (∀ r ∈ l, r.blacklist = true) → ∀ r ∈ renumberFrom i l, r.blacklist = true := by
  intro i l
  induction l generalizing i with
  | nil => intro _ r hr; cases hr
  | cons h t ih =>
    intro hall r hr
    rcases List.mem_cons.mp hr with rfl | hr
    · exact hall h (by simp)
    · exact ih (i + 1) (fun x hx => hall x (by simp [hx])) r hr

theorem renumberFrom_delay_zero :
    ∀ (i : Nat) (l : List Relay),
      (∀ r ∈ l, r.delay = 0) → ∀ r ∈ renumberFrom i l, r.delay = 0 := by
  intro i l
  induction l generalizing i with
  | nil => intro _ r hr; cases hr
  | cons h t ih =>
    intro hall r hr
    rcases List.mem_cons.mp hr with rfl | hr
    · exact hall h (by simp)
    · exact ih (i + 1) (fun x hx => hall x (by simp [hx])) r hr

theorem process_relays_blacklist (L : DateLib) (m : Msg) :
    ∀ r ∈ process_relays L m, r.blacklist = true := by
  intro r hr
  unfold process_relays at hr
  by_cases hrev : needsReverse (initialRelays L m)
  · rw [if_pos hrev] at hr
    exact renumberFrom_blacklist 1 (initialRelays L m).reverse
      (fun x hx => numberFrom_blacklist L 1 _ x (List.mem_reverse.mp hx)) r hr
  · rw [if_neg hrev] at hr
    exact numberFrom_blacklist L 1 _ r hr

theorem process_relays_delay_zero (L : DateLib) (m : Msg) :
    ∀ r ∈ process_relays L m, r.delay = 0 := by
  intro r hr
  unfold process_relays at hr
  by_cases hrev : needsReverse (initialRelays L m)
  · rw [if_pos hrev] at hr
    exact renumberFrom_delay_zero 1 (initialRelays L m).reverse
      (fun x hx => numberFrom_delay_zero L 1 _ x (List.mem_reverse.mp hx)) r hr
  · rw [if_neg hrev] at hr
    exact numberFrom_delay_zero L 1 _ r hr

/-! ## Claim C1: the single reorder check -/

/-- C1.  After initial numbering (`initialRelays`, hops `1..N` over the
reversed physical order), the sequence is reversed and renumbered `1..N`
exactly when the first two hops both carry parsed timestamps and hop 2's
timestamp is strictly earlier than hop 1's; in every other case the hop
order is left unchanged, and no other sort is applied. -/
theorem relay_reorder_single_check (L : DateLib) (m : Msg) :
    (needsReverse (initialRelays L m) = true ↔
      ∃ r0 r1 t0 t1, (initialRelays L m)[0]? = some r0 ∧
        (initialRelays L m)[1]? = some r1 ∧
        r0.time_dt = some t0 ∧ r1.time_dt = some t1 ∧ t1 < t0) ∧
    (needsReverse (initialRelays L m) = true →
      process_relays L m = renumberFrom 1 (initialRelays L m).reverse) ∧
    (needsReverse (initialRelays L m) = false →
      process_relays L m = initialRelays L m) := by
  refine ⟨?_, ?_, ?_⟩
  · generalize initialRelays L m = init
    match init with
    | [] => simp [needsReverse]
    | [r0] => simp [needsReverse]
    | r0 :: r1 :: rest =>
      cases h0 : r0.time_dt with
      | none => simp [needsReverse, h0]
      | some t0 =>
        cases h1 : r1.time_dt with
        | none => simp [needsReverse, h0, h1]
        | some t1 =>
          simp only [needsReverse, h0, h1, decide_eq_true_eq,
            List.getElem?_cons_zero, List.getElem?_cons_succ]
          constructor
          · intro hlt
            exact ⟨r0, r1, t0, t1, rfl, rfl, h0, h1, hlt⟩
          · rintro ⟨r0', r1', t0', t1', e0, e1, ht0, ht1, hlt⟩
            cases e0; cases e1
            rw [h0] at ht0; rw [h1] at ht1
            cases ht0; cases ht1
            exact hlt
  · intro hrev
    simp [process_relays, hrev]
  · intro hrev
    simp [process_relays, hrev]

/-- C1 witness: a concrete two-hop message on which the reorder condition
holds and the chain is reversed and renumbered. -/
theorem relay_reorder_single_check_witness :
    (needsReverse (initialRelays
        ⟨fun s => if s = "t0" then some 10 else if s = "t1" then some 0 else none,
         fun _ => "f"⟩
        [("Received", "a; t1"), ("Received", "b; t0")]) = true) ∧
    process_relays
        ⟨fun s => if s = "t0" then some 10 else if s = "t1" then some 0 else none,
         fun _ => "f"⟩
        [("Received", "a; t1"), ("Received", "b; t0")] =
      renumberFrom 1 (initialRelays
        ⟨fun s => if s = "t0" then some 10 else if s = "t1" then some 0 else none,
         fun _ => "f"⟩
        [("Received", "a; t1"), ("Received", "b; t0")]).reverse :=
  ⟨by decide,
    (relay_reorder_single_check
      ⟨fun s => if s = "t0" then some 10 else if s = "t1" then some 0 else none,
       fun _ => "f"⟩
      [("Received", "a; t1"), ("Received", "b; t0")]).2.1 (by decide)⟩

/-! ## Claim C2: hop numbering is always contiguous 1..N -/

/-- C2.  For a header block with `N` Received headers the relay sequence has
exactly `N` hops and the hop numbers, in list order, are exactly `1..N`,
whether or not the reorder check fires. -/
theorem relay_hop_numbering_contiguous (L : DateLib) (m : Msg) :
    (process_relays L m).length = (msgGetAll m "Received").length ∧
    (process_relays L m).map Relay.hop =
      List.range' 1 (msgGetAll m "Received").length := by
  have hlen : (initialRelays L m).length = (msgGetAll m "Received").length := by
    rw [initialRelays, numberFrom_length, List.length_reverse]
  by_cases hrev : needsReverse (initialRelays L m)
  · have he : process_relays L m = renumberFrom 1 (initialRelays L m).reverse := by
      simp [process_relays, hrev]
    rw [he, renumberFrom_map_hop, renumberFrom_length, List.length_reverse, hlen]
    exact ⟨rfl, rfl⟩
  · have he : process_relays L m = initialRelays L m := by
      simp [process_relays, hrev]
    rw [he, initialRelays, numberFrom_map_hop, numberFrom_length, List.length_reverse]
    exact ⟨rfl, rfl⟩

/-! ## Claim C10: the per-hop blacklist flag is constantly `True` -/

theorem computeRelayDelays_blacklist :
    ∀ (rs : List Relay) (prev : Option ℚ),
      (∀ r ∈ rs, r.blacklist = true) →
      ∀ r ∈ (computeRelayDelays prev rs).1, r.blacklist = true := by
  intro rs
  induction rs with
  | nil => intro prev _ r hr; simp [computeRelayDelays] at hr
  | cons x xs ih =>
    intro prev hall r hr
    have hx : x.blacklist = true := hall x (by simp)
    have hxs : ∀ y ∈ xs, y.blacklist = true := fun y hy => hall y (by simp [hy])
    cases prev with
    | none =>
      simp only [computeRelayDelays] at hr
      rcases List.mem_cons.mp hr with rfl | hr
      · exact hx
      · exact ih x.time_dt hxs r hr
    | some tp =>
      cases hxt : x.time_dt with
      | none =>
        simp only [computeRelayDelays, hxt] at hr
        rcases List.mem_cons.mp hr with rfl | hr
        · exact hx
        · exact ih none hxs r hr
      | some tc =>
        simp only [computeRelayDelays, hxt] at hr
        rcases List.mem_cons.mp hr with rfl | hr
        · exact hx
        · exact ih (some tc) hxs r hr

theorem calculate_delays_relays_cases (m : Msg) (relays : List Relay) :
    (calculate_delays m relays).relays = relays ∨
    (calculate_delays m relays).relays = (computeRelayDelays none relays).1 := by
  unfold calculate_delays
  by_cases h : msgGet m "X-MS-Exchange-Transport-EndToEndLatency" ≠ ""
  · rw [if_pos h]
    cases parse_latency_header (msgGet m "X-MS-Exchange-Transport-EndToEndLatency") with
    | some d => left; rfl
    | none => right; rfl
  · rw [if_neg h]
    right; rfl

/-- C10.  Every relay hop surviving the whole core pipeline (relay parsing,
the reorder check, delay calculation; sender-IP extraction only reads the
relay list) has its `blacklist` field equal to the constant `True` set by
`_parse_received_header`, for every input — the flag carries no information
about the input. -/
theorem blacklist_field_constant_true (L : DateLib) (m : Msg) (r : Relay)
    (hr : r ∈ (calculate_delays m (process_relays L m)).relays) :
    r.blacklist = true := by
  rcases calculate_delays_relays_cases m (process_relays L m) with he | he
  · rw [he] at hr
    exact process_relays_blacklist L m r hr
  · rw [he] at hr
    exact computeRelayDelays_blacklist (process_relays L m) none
      (process_relays_blacklist L m) r hr

def c10dl : DateLib := ⟨fun _ => none, fun _ => ""⟩

def c10msg : Msg := [("Received", "from a by b; x")]

/-- C10 witness: a concrete hop in a concrete analysis result. -/
theorem blacklist_field_constant_true_witness :
    (parse_received_header c10dl "from a by b; x" 1 ∈
      (calculate_delays c10msg (process_relays c10dl c10msg)).relays) ∧
    (parse_received_header c10dl "from a by b; x" 1).blacklist = true :=
  ⟨by decide, blacklist_field_constant_true c10dl c10msg _ (by decide)⟩

/-! ## Claim C3: per-hop and total delay computation -/

/-- Per-hop delay formula stated by the spec: `max(0, t_i - t_{i-1})` when
both timestamps are present, else 0. -/
def specDelay : Option ℚ → Option ℚ → ℚ
  | some a, some b => max 0 (b - a)
  | _, _ => 0

/-- Spec delay list relative to the previous hop's timestamp. -/
def specDelaysFrom : Option ℚ → List (Option ℚ) → List ℚ
  | _, [] => []
  | prev, t :: ts => specDelay prev t :: specDelaysFrom t ts

/-- The per-hop delay list the spec prescribes for a timestamp list (hop 1
always has delay 0). -/
def specDelays : List (Option ℚ) → List ℚ
  | [] => []
  | t :: ts => 0 :: specDelaysFrom t ts

theorem specDelays_eq_from_none : ∀ l, specDelays l = specDelaysFrom none l
  | [] => rfl
  | _ :: _ => rfl

theorem computeRelayDelays_map_time_dt :
    ∀ (rs : List Relay) (prev : Option ℚ),
      (computeRelayDelays prev rs).1.map Relay.time_dt = rs.map Relay.time_dt := by
  intro rs
  induction rs with
  | nil => intro prev; rfl
  | cons x xs ih =>
    intro prev
    cases prev with
    | none => simp only [computeRelayDelays, List.map_cons, ih]
    | some tp =>
      cases hxt : x.time_dt with
      | none => simp only [computeRelayDelays, hxt, List.map_cons, ih]
      | some tc => simp only [computeRelayDelays, hxt, List.map_cons, ih]

theorem computeRelayDelays_map_delay :
    ∀ (rs : List Relay) (prev : Option ℚ),
      (∀ r ∈ rs, r.delay = 0) →
      (computeRelayDelays prev rs).1.map Relay.delay =
        specDelaysFrom prev (rs.map Relay.time_dt) := by
  intro rs
  induction rs with
  | nil => intro prev _; rfl
  | cons x xs ih =>
    intro prev hall
    have hx : x.delay = 0 := hall x (by simp)
    have hxs : ∀ y ∈ xs, y.delay = 0 := fun y hy => hall y (by simp [hy])
    cases prev with
    | none =>
      simp only [computeRelayDelays, List.map_cons, specDelaysFrom, specDelay, ih _ hxs, hx]
    | some tp =>
      cases hxt : x.time_dt with
      | none =>
        simp only [computeRelayDelays, hxt, List.map_cons, specDelaysFrom, specDelay,
          ih _ hxs, hx]
      | some tc =>
        simp only [computeRelayDelays, hxt, List.map_cons, specDelaysFrom, specDelay,
          ih _ hxs, List.cons.injEq, and_true]
        exact max_comm _ _

theorem computeRelayDelays_snd :
    ∀ (rs : List Relay) (prev : Option ℚ),
      (computeRelayDelays prev rs).2 =
        (specDelaysFrom prev (rs.map Relay.time_dt)).sum := by
  intro rs
  induction rs with
  | nil => intro prev; rfl
  | cons x xs ih =>
    intro prev
    cases prev with
    | none =>
      simp only [computeRelayDelays, List.map_cons, specDelaysFrom, specDelay,
        List.sum_cons, ih]
      ring
    | some tp =>
      cases hxt : x.time_dt with
      | none =>
        simp only [computeRelayDelays, hxt, List.map_cons, specDelaysFrom, specDelay,
          List.sum_cons, ih]
        ring
      | some tc =>
        simp only [computeRelayDelays, hxt, List.map_cons, specDelaysFrom, specDelay,
          List.sum_cons, ih]
        rw [max_comm]

/-- C3 (amended).  When the end-to-end latency header is absent or does not
parse, `_calculate_delays` sets each hop's delay to `max(0, t_i - t_{i-1})`
(0 when a timestamp is missing, and always 0 for hop 1), sets the total to
the sum of those per-hop delays, and tags the result as derived from the
Received headers; timestamps pass through unchanged.  (When the latency
header parses, the per-hop delays are left at their initial 0 instead.) -/
theorem relay_delay_calculation_amended (m : Msg) (relays : List Relay)
    (hz : ∀ r ∈ relays, r.delay = 0)
    (hlat : msgGet m "X-MS-Exchange-Transport-EndToEndLatency" = "" ∨
      parse_latency_header (msgGet m "X-MS-Exchange-Transport-EndToEndLatency") = none) :
    (calculate_delays m relays).delay_source = "Calculated from Received headers" ∧
    (calculate_delays m relays).relays.map Relay.delay =
      specDelays (relays.map Relay.time_dt) ∧
    (calculate_delays m relays).total_delay =
      (specDelays (relays.map Relay.time_dt)).sum ∧
    (calculate_delays m relays).relays.map Relay.time_dt = relays.map Relay.time_dt := by
  have hcompute :
      calculate_delays m relays =
        ⟨(computeRelayDelays none relays).1, (computeRelayDelays none relays).2,
          "Calculated from Received headers"⟩ := by
    unfold calculate_delays
    rcases hlat with he | hp
    · rw [if_neg (by simp [he])]
    · by_cases hne : msgGet m "X-MS-Exchange-Transport-EndToEndLatency" ≠ ""
      · rw [if_pos hne, hp]
      · rw [if_neg hne]
  rw [hcompute]
  refine ⟨rfl, ?_, ?_, computeRelayDelays_map_time_dt relays none⟩
  · rw [specDelays_eq_from_none]
    exact computeRelayDelays_map_delay relays none hz
  · rw [specDelays_eq_from_none]
    exact computeRelayDelays_snd relays none

def c3dl : DateLib :=
  ⟨fun s => if s = "T1" then some 0 else if s = "T2" then some 10 else none, fun _ => "x"⟩

def c3msg : Msg :=
  [ ("Received", "a; T2"), ("Received", "b; T1")
  , ("X-MS-Exchange-Transport-EndToEndLatency", "00:00:05") ]

/-- C3 counterexample.  With a parsable latency header present, hop 2 of the
analysis result carries both timestamps (0 and 10 seconds) yet its delay
field is 0, not `max(0, t_2 - t_1) = 10`: the early return skips the
per-hop delay assignment, so the claim's unconditional per-hop formula
fails. -/
theorem relay_delay_unconditional_cex :
    (calculate_delays c3msg (process_relays c3dl c3msg)).relays.map Relay.time_dt =
      [some 0, some 10] ∧
    (calculate_delays c3msg (process_relays c3dl c3msg)).relays.map Relay.delay = [0, 0] ∧
    ¬ ((0 : ℚ) = max 0 ((10 : ℚ) - 0)) := by
  refine ⟨by decide, by decide, ?_⟩
  rw [show ((10 : ℚ) - 0) = 10 by norm_num, max_eq_right (by norm_num : (0 : ℚ) ≤ 10)]
  norm_num

def c3relayA : Relay :=
  { hop := 1, fromText := "", byText := "", withText := "", time := ""
  , time_dt := some 0, delay := 0, blacklist := true, ip := "" }

def c3relayB : Relay := { c3relayA with hop := 2, time_dt := some 10 }

/-- C3 witness: the amended theorem applied at a concrete two-hop chain with
no latency header. -/
theorem relay_delay_calculation_amended_witness :
    ((∀ r ∈ [c3relayA, c3relayB], r.delay = 0) ∧
      msgGet [] "X-MS-Exchange-Transport-EndToEndLatency" = "") ∧
    (calculate_delays [] [c3relayA, c3relayB]).relays.map Relay.delay =
      specDelays ([c3relayA, c3relayB].map Relay.time_dt) :=
  ⟨⟨by decide, by decide⟩,
    (relay_delay_calculation_amended [] [c3relayA, c3relayB] (by decide)
      (Or.inl (by decide))).2.1⟩

/-! ## Claim C4: the latency-header parser -/

theorem searchHMS_eq_none_of_no_digit :
    ∀ l : List Char, (∀ c ∈ l, c.isDigit = false) → searchHMS l = none := by
  intro l
  induction l with
  | nil => intro _; rfl
  | cons c rest ih =>
    intro h
    have hc : c.isDigit = false := h c (by simp)
    simp only [searchHMS, hmsAt, hc, Bool.false_eq_true, if_false]
    exact ih (fun x hx => h x (by simp [hx]))

theorem searchSecFrac_eq_none_of_no_digit :
    ∀ l : List Char, (∀ c ∈ l, c.isDigit = false) → searchSecFrac l = none := by
  intro l
  induction l with
  | nil => intro _; rfl
  | cons c rest ih =>
    intro h
    have hc : c.isDigit = false := h c (by simp)
    simp only [searchSecFrac, secFracAt, List.takeWhile_cons, hc, Bool.false_eq_true,
      if_false, ite_true, reduceIte]
    exact ih (fun x hx => h x (by simp [hx]))

theorem searchIntRun_eq_none_of_no_digit :
    ∀ l : List Char, (∀ c ∈ l, c.isDigit = false) → searchIntRun l = none := by
  intro l
  induction l with
  | nil => intro _; rfl
  | cons c rest ih =>
    intro h
    have hc : c.isDigit = false := h c (by simp)
    simp only [searchIntRun, hc, Bool.false_eq_true, if_false]
    exact ih (fun x hx => h x (by simp [hx]))

theorem parse_latency_none_of_no_digit (s : String)
    (h : ∀ c ∈ s.data, c.isDigit = false) : parse_latency_header s = none := by
  by_cases he : s = ""
  · simp [parse_latency_header, he]
  · simp only [parse_latency_header, if_neg he, searchHMS_eq_none_of_no_digit s.data h,
      searchSecFrac_eq_none_of_no_digit s.data h, searchIntRun_eq_none_of_no_digit s.data h]

/-- C4.  The latency parser maps `"01:02:03.500"` to `3723.5` seconds (the
`HH:MM:SS.frac` pattern), `"45000"` to `45.0` (bare integer above 3600 read
as milliseconds), `"12.250"` to `12.25` (decimal pattern); the `HH:MM:SS`
pattern takes priority even when a decimal appears earlier in the string;
and input containing no digit (hence matching none of the patterns) yields
no value. -/
theorem latency_header_parsing :
    parse_latency_header "01:02:03.500" = some (7447 / 2) ∧
    parse_latency_header "45000" = some 45 ∧
    parse_latency_header "12.250" = some (49 / 4) ∧
    parse_latency_header "99.5 01:02:03" = some 3723 ∧
    (∀ s : String, (∀ c ∈ s.data, c.isDigit = false) → parse_latency_header s = none) := by
  refine ⟨?_, ?_, ?_, ?_, parse_latency_none_of_no_digit⟩
  · have h : searchHMS ("01:02:03.500".data) = some (1, 2, 3, some ['5', '0', '0']) := by
      decide
    simp only [parse_latency_header, if_neg (by decide : ¬("01:02:03.500" : String) = ""), h]
    norm_num [fracVal, show natOfDigits ['5', '0', '0'] = 500 from by decide]
  · have h1 : searchHMS ("45000".data) = none := by decide
    have h2 : searchSecFrac ("45000".data) = none := by decide
    have h3 : searchIntRun ("45000".data) = some ['4', '5', '0', '0', '0'] := by decide
    simp only [parse_latency_header, if_neg (by decide : ¬("45000" : String) = ""), h1, h2,
      h3, show natOfDigits ['4', '5', '0', '0', '0'] = 45000 from by decide]
    norm_num
  · have h1 : searchHMS ("12.250".data) = none := by decide
    have h2 : searchSecFrac ("12.250".data) = some (['1', '2'], ['2', '5', '0']) := by decide
    simp only [parse_latency_header, if_neg (by decide : ¬("12.250" : String) = ""), h1, h2]
    norm_num [fracVal, show natOfDigits ['1', '2'] = 12 from by decide,
      show natOfDigits ['2', '5', '0'] = 250 from by decide]
  · have h : searchHMS ("99.5 01:02:03".data) = some (1, 2, 3, none) := by decide
    simp only [parse_latency_header, if_neg (by decide : ¬("99.5 01:02:03" : String) = ""), h]
    norm_num

/-- C4 witness: the no-digit branch applied at a concrete string. -/
theorem latency_header_parsing_witness :
    (∀ c ∈ ("abc" : String).data, c.isDigit = false) ∧ parse_latency_header "abc" = none :=
  ⟨by decide, latency_header_parsing.2.2.2.2 "abc" (by decide)⟩

/-! ## Claim C5: which semicolon the timestamp follows -/

theorem tmGo_no_newline :
    ∀ (k : Nat) (core : List Char), core ≠ [] → '\n' ∉ core →
      ∃ j, j ≤ k ∧ tmGo k core = some (core.drop j) := by
  intro k
  induction k with
  | zero =>
    intro core hne hnl
    refine ⟨0, Nat.le_refl 0, ?_⟩
    simp [tmGo, hne, hnl]
  | succ k ih =>
    intro core hne hnl
    by_cases hr : core.drop (k + 1) = []
    · obtain ⟨j, hj, he⟩ := ih core hne hnl
      refine ⟨j, Nat.le_succ_of_le hj, ?_⟩
      simp only [tmGo]
      rw [if_neg (by simp [hr])]
      exact he
    · have hnlr : '\n' ∉ core.drop (k + 1) := fun hm => hnl (List.mem_of_mem_drop hm)
      refine ⟨k + 1, Nat.le_refl _, ?_⟩
      simp only [tmGo]
      rw [if_pos ⟨hr, hnlr⟩]

theorem tailMatch_no_newline (post : List Char) (hne : post ≠ []) (hnl : '\n' ∉ post) :
    ∃ j, j ≤ (post.takeWhile isSpace).length ∧ tailMatch post = some (post.drop j) := by
  have hdt : dollarTrim post = post := by
    unfold dollarTrim
    rw [if_neg]
    intro hlast
    exact hnl (List.mem_of_getLast?_eq_some hlast)
  unfold tailMatch
  rw [hdt]
  exact tmGo_no_newline _ post hne hnl

theorem dropWhile_drop_of_space :
    ∀ (j : Nat) (l : List Char), (∀ c ∈ l.take j, isSpace c = true) →
      (l.drop j).dropWhile isSpace = l.dropWhile isSpace := by
  intro j
  induction j with
  | zero => intro l _; simp
  | succ j ih =>
    intro l h
    cases l with
    | nil => simp
    | cons c rest =>
      have hc : isSpace c = true := h c (by simp)
      simp only [List.drop_succ_cons, List.dropWhile_cons, hc, if_true]
      exact ih rest (fun x hx => h x (by simp [hx]))

theorem strip_drop_of_space (j : Nat) (l : List Char)
    (h : ∀ c ∈ l.take j, isSpace c = true) : strip (l.drop j) = strip l := by
  unfold strip
  rw [dropWhile_drop_of_space j l h]

theorem take_spaces_of_le_takeWhile :
    ∀ (j : Nat) (l : List Char), j ≤ (l.takeWhile isSpace).length →
      ∀ c ∈ l.take j, isSpace c = true := by
  intro j
  induction j with
  | zero => intro l _ c hc; simp at hc
  | succ j ih =>
    intro l hj c hc
    cases l with
    | nil => simp at hc
    | cons a rest =>
      by_cases ha : isSpace a
      · rw [List.take_succ_cons] at hc
        rcases List.mem_cons.mp hc with rfl | hc
        · exact ha
        · refine ih rest ?_ c hc
          rw [List.takeWhile_cons, if_pos ha] at hj
          exact Nat.le_of_succ_le_succ hj
      · rw [List.takeWhile_cons, if_neg ha] at hj
        simp at hj
  
theorem searchTimeAux_append (pre post g : List Char)
    (hpre : ';' ∉ pre) (h : tailMatch post = some g) :
    searchTimeAux (pre ++ ';' :: post) = some g := by
  induction pre with
  | nil => simp [searchTimeAux, h]
  | cons c cs ih =>
    have hc : ¬ c = ';' := fun e => hpre (by simp [e])
    simp only [List.cons_append, searchTimeAux, if_neg hc]
    exact ih (fun hm => hpre (by simp [hm]))

/-- C5 (amended).  The extracted timestamp text of a single-line `Received`
header is the (stripped) text following the FIRST semicolon, not the last;
when that text fails to parse as an RFC-2822 date the raw stripped text is
retained in the hop's `time` field and the parsed timestamp is left empty. -/
theorem received_timestamp_first_semicolon (L : DateLib) (h : String) (k : Nat)
    (pre post : List Char)
    (hsplit : h.data = pre ++ ';' :: post)
    (hpre : ';' ∉ pre)
    (hnl : '\n' ∉ h.data)
    (hpost : post ≠ []) :
    relayTimeStr h = some (String.mk (strip post)) ∧
    (parse_received_header L h k).time_dt = L.parsedate (String.mk (strip post)) ∧
    (L.parsedate (String.mk (strip post)) = none →
      (parse_received_header L h k).time = String.mk (strip post) ∧
      (parse_received_header L h k).time_dt = none) := by
  have hnlpost : '\n' ∉ post := fun hm => hnl (by rw [hsplit]; simp [hm])
  obtain ⟨j, hj, hm⟩ := tailMatch_no_newline post hpost hnlpost
  have hts : relayTimeStr h = some (String.mk (strip post)) := by
    unfold relayTimeStr
    rw [hsplit, searchTimeAux_append pre post _ hpre hm]
    simp only [Option.map_some']
    rw [strip_drop_of_space j post (take_spaces_of_le_takeWhile j post hj)]
  refine ⟨hts, ?_, ?_⟩
  · rw [parse_received_header_time_dt]
    unfold relayTimeDt
    rw [hts]
    rfl
  · intro hpd
    constructor
    · rw [parse_received_header_time]
      unfold relayTime
      rw [hts]
      simp only [hpd]
    · rw [parse_received_header_time_dt]
      unfold relayTimeDt
      rw [hts]
      simp [hpd]

/-- The timestamp text the claim describes: the text following the LAST
semicolon of the header (stripped), stated from the spec's words. -/
def specTimeAfterLastSemicolon (h : String) : Option String :=
  if ';' ∈ h.data then some (String.mk (strip (afterLastChar ';' h.data))) else none

/-- C5 counterexample.  On `"a; b; c d"` the code extracts the text after
the FIRST semicolon, `"b; c d"`, while the claim's last-semicolon rule gives
`"c d"`; with an unparsable date the hop retains `"b; c d"`. -/
theorem received_timestamp_last_semicolon_cex :
    relayTimeStr "a; b; c d" = some "b; c d" ∧
    specTimeAfterLastSemicolon "a; b; c d" = some "c d" ∧
    ¬ ("b; c d" : String) = "c d" ∧
    (parse_received_header ⟨fun _ => none, fun _ => ""⟩ "a; b; c d" 1).time = "b; c d" := by
  refine ⟨by decide, by decide, by decide, by decide⟩

/-- C5 witness: the amended theorem applied at a concrete header. -/
theorem received_timestamp_first_semicolon_witness :
    (("x; y z" : String).data = ['x'] ++ ';' :: (" y z" : String).data ∧
      ';' ∉ ['x'] ∧ '\n' ∉ ("x; y z" : String).data ∧ (" y z" : String).data ≠ []) ∧
    relayTimeStr "x; y z" = some "y z" :=
  ⟨⟨by decide, by decide, by decide, by decide⟩,
    (received_timestamp_first_semicolon ⟨fun _ => none, fun _ => ""⟩ "x; y z" 1 ['x']
      (" y z" : String).data (by decide) (by decide) (by decide) (by decide)).1⟩

/-! ## Claim C6: domain extraction -/

theorem afterLastChar_not_mem (ch : Char) (l : List Char) : ch ∉ afterLastChar ch l := by
  intro hm
  unfold afterLastChar at hm
  rw [List.mem_reverse] at hm
  have hp := List.mem_takeWhile_imp hm
  simp at hp

theorem extractDomainFrom_spec (v : String) :
    '@' ∉ (extractDomainFrom v).data ∧
    (v = "" → extractDomainFrom v = "") ∧
    ('@' ∉ (parseaddrAddr v).data → extractDomainFrom v = "") ∧
    (v ≠ "" → '@' ∈ (parseaddrAddr v).data →
      extractDomainFrom v = String.mk (afterLastChar '@' (parseaddrAddr v).data)) := by
  by_cases hv : v = ""
  · have he : extractDomainFrom v = "" := by unfold extractDomainFrom; rw [if_pos hv]
    exact ⟨by simp [he], fun _ => he, fun _ => he, fun hne => absurd hv hne⟩
  · by_cases ha : '@' ∈ (parseaddrAddr v).data
    · have he : extractDomainFrom v = String.mk (afterLastChar '@' (parseaddrAddr v).data) := by
        unfold extractDomainFrom
        rw [if_neg hv, if_pos ha]
      refine ⟨?_, fun h => absurd h hv, fun h => absurd ha h, fun _ _ => he⟩
      rw [he]
      exact afterLastChar_not_mem '@' _
    · have he : extractDomainFrom v = "" := by
        unfold extractDomainFrom
        rw [if_neg hv, if_neg ha]
      exact ⟨by simp [he], fun h => absurd h hv, fun _ => he, fun _ h => absurd h ha⟩

/-- C6 (amended).  `from_domain` is the portion after the last `@` of the
parsed From address with its case preserved (no lower-casing is applied),
`return_path_domain` likewise from Return-Path; each defaults to `""` when
its header is absent or its address has no `@`, the result never contains
`@`, and extraction is total. -/
theorem domain_extraction_amended (m : Msg) :
    ('@' ∉ (extract_domains m).1.data ∧ '@' ∉ (extract_domains m).2.data) ∧
    (msgGet m "From" = "" → (extract_domains m).1 = "") ∧
    (msgGet m "Return-Path" = "" → (extract_domains m).2 = "") ∧
    ('@' ∉ (parseaddrAddr (msgGet m "From")).data → (extract_domains m).1 = "") ∧
    ('@' ∉ (parseaddrAddr (msgGet m "Return-Path")).data → (extract_domains m).2 = "") ∧
    (msgGet m "From" ≠ "" → '@' ∈ (parseaddrAddr (msgGet m "From")).data →
      (extract_domains m).1 =
        String.mk (afterLastChar '@' (parseaddrAddr (msgGet m "From")).data)) ∧
    (msgGet m "Return-Path" ≠ "" → '@' ∈ (parseaddrAddr (msgGet m "Return-Path")).data →
      (extract_domains m).2 =
        String.mk (afterLastChar '@' (parseaddrAddr (msgGet m "Return-Path")).data)) := by
  have h1 := extractDomainFrom_spec (msgGet m "From")
  have h2 := extractDomainFrom_spec (msgGet m "Return-Path")
  exact ⟨⟨h1.1, h2.1⟩, h1.2.1, h2.2.1, h1.2.2.1, h2.2.2.1, h1.2.2.2, h2.2.2.2⟩

def c6msg : Msg := [("From", "Alice <alice@EXAMPLE.COM>")]

/-- C6 counterexample: the code does not lower-case the extracted domain. -/
theorem from_domain_lowercase_cex :
    extract_domains c6msg = ("EXAMPLE.COM", "") ∧
    lowerStr "EXAMPLE.COM" = "example.com" ∧
    ¬ ("EXAMPLE.COM" : String) = "example.com" :=
  ⟨by decide, by decide, by decide⟩

/-- C6 witness: the amended theorem applied at a concrete From header. -/
theorem domain_extraction_amended_witness :
    (msgGet [("From", "bob@Ex.Org")] "From" ≠ "" ∧
      '@' ∈ (parseaddrAddr (msgGet [("From", "bob@Ex.Org")] "From")).data) ∧
    (extract_domains [("From", "bob@Ex.Org")]).1 =
      String.mk (afterLastChar '@' (parseaddrAddr (msgGet [("From", "bob@Ex.Org")] "From")).data) :=
  ⟨⟨by decide, by decide⟩,
    (domain_extraction_amended [("From", "bob@Ex.Org")]).2.2.2.2.2.1 (by decide) (by decide)⟩

/-! ## Claim C7: the stored header collection -/

theorem dictLookup_dictInsert (D : List (String × String)) (k0 v0 k : String) :
    dictLookup (dictInsert D k0 v0) k = if k = k0 then some v0 else dictLookup D k := by
  induction D with
  | nil =>
    by_cases h : k0 = k
    · simp [dictInsert, dictLookup, h]
    · have hk : ¬ k = k0 := fun e => h e.symm
      simp [dictInsert, dictLookup, h, hk]
  | cons p D' ih =>
    by_cases hp : p.1 = k0
    · rw [dictInsert, if_pos hp]
      by_cases hk : k = k0
      · simp [dictLookup, hk]
      · have hpk : ¬ p.1 = k := fun e => hk (hp ▸ e).symm
        rw [dictLookup, if_neg (fun e => hk e.symm), if_neg hk, dictLookup, if_neg hpk]
    · rw [dictInsert, if_neg hp]
      by_cases hpk : p.1 = k
      · have hk : ¬ k = k0 := fun e => hp (hpk.trans e)
        rw [dictLookup, if_pos hpk, if_neg hk, dictLookup, if_pos hpk]
      · rw [dictLookup, if_neg hpk, ih]
        by_cases hk : k = k0
        · rw [if_pos hk, if_pos hk]
        · rw [if_neg hk, if_neg hk, dictLookup, if_neg hpk]

theorem dictLookup_eq_none_iff (D : List (String × String)) (k : String) :
    dictLookup D k = none ↔ k ∉ D.map Prod.fst := by
  induction D with
  | nil => simp [dictLookup]
  | cons p D' ih =>
    rw [dictLookup]
    by_cases hp : p.1 = k
    · rw [if_pos hp]
      constructor
      · intro h; cases h
      · intro h
        exact absurd (show k ∈ (p :: D').map Prod.fst by simp [← hp]) h
    · rw [if_neg hp, ih]
      simp only [List.map_cons, List.mem_cons, not_or]
      constructor
      · intro h; exact ⟨fun e => hp e.symm, h⟩
      · intro h; exact h.2

theorem dictInsert_map_fst_of_none (D : List (String × String)) (k v : String)
    (h : dictLookup D k = none) :
    (dictInsert D k v).map Prod.fst = D.map Prod.fst ++ [k] := by
  induction D with
  | nil => rfl
  | cons p D' ih =>
    by_cases hp : p.1 = k
    · rw [dictLookup, if_pos hp] at h
      cases h
    · rw [dictLookup, if_neg hp] at h
      rw [dictInsert, if_neg hp]
      simp only [List.map_cons, List.cons_append, ih h]

theorem dictInsert_map_fst_of_some (D : List (String × String)) (k v w : String)
    (h : dictLookup D k = some w) :
    (dictInsert D k v).map Prod.fst = D.map Prod.fst := by
  induction D with
  | nil => cases h
  | cons p D' ih =>
    by_cases hp : p.1 = k
    · rw [dictInsert, if_pos hp]
      simp [hp]
    · rw [dictLookup, if_neg hp] at h
      rw [dictInsert, if_neg hp]
      simp only [List.map_cons, ih h]

theorem foldl_dictInsert_nodup :
    ∀ (l : List (String × String)) (D : List (String × String)),
      (D.map Prod.fst).Nodup →
      ((l.foldl (fun m q => dictInsert m q.1 q.2) D).map Prod.fst).Nodup := by
  intro l
  induction l with
  | nil => intro D h; exact h
  | cons p l' ih =>
    intro D h
    refine ih _ ?_
    cases hdl : dictLookup D p.1 with
    | some w => rw [dictInsert_map_fst_of_some D p.1 p.2 w hdl]; exact h
    | none =>
      rw [dictInsert_map_fst_of_none D p.1 p.2 hdl]
      have hk : p.1 ∉ D.map Prod.fst := (dictLookup_eq_none_iff D p.1).mp hdl
      simp [List.nodup_append, h, hk]

theorem foldl_dict_lookup :
    ∀ (l : List (String × String)) (D : List (String × String)) (k : String),
      dictLookup (l.foldl (fun m q => dictInsert m q.1 q.2) D) k =
        ((l.reverse.find? (fun q => q.1 = k)).map Prod.snd).or (dictLookup D k) := by
  intro l
  induction l with
  | nil => intro D k; simp
  | cons p l' ih =>
    intro D k
    simp only [List.foldl_cons, List.reverse_cons]
    rw [ih, List.find?_append]
    cases hf : l'.reverse.find? (fun q => q.1 = k) with
    | some q => simp
    | none =>
      simp only [Option.map_none', Option.or, dictLookup_dictInsert]
      by_cases hk : p.1 = k
      · rw [List.find?_cons_of_pos _ (by simp [hk]), if_pos hk.symm]
        rfl
      · rw [List.find?_cons_of_neg _ (by simp [hk]), if_neg (fun e => hk e.symm)]
        rfl

/-- C7 (amended).  `result.headers = dict(msg.items())` stores the headers
as a mapping with unique names: repeated header names (such as every
`Received`) are collapsed to a single entry whose value is the LAST
occurrence's value, rather than being preserved as an ordered multimap. -/
theorem headers_dict_amended (l : List (String × String)) (k : String) :
    ((dictOfPairs l).map Prod.fst).Nodup ∧
    dictLookup (dictOfPairs l) k = (l.reverse.find? (fun q => q.1 = k)).map Prod.snd := by
  constructor
  · exact foldl_dictInsert_nodup l [] (by simp)
  · rw [dictOfPairs, foldl_dict_lookup l [] k]
    cases hf : l.reverse.find? (fun q => q.1 = k) <;> simp [dictLookup]

/-- C7 counterexample.  Two `Received` headers collapse to one entry: the
stored collection is not the ordered duplicate-preserving sequence the claim
describes. -/
theorem headers_multimap_cex :
    dictOfPairs [("Received", "a"), ("Received", "b")] = [("Received", "b")] ∧
    ¬ dictOfPairs [("Received", "a"), ("Received", "b")] =
        [("Received", "a"), ("Received", "b")] :=
  ⟨by decide, by decide⟩

/-- C7 witness: the amended lookup law at a concrete duplicate-key list. -/
theorem headers_dict_amended_witness :
    dictLookup (dictOfPairs [("A", "1"), ("A", "2")]) "A" = some "2" :=
  ((headers_dict_amended [("A", "1"), ("A", "2")] "A").2).trans (by decide)

/-! ## Claim C8: tri-state blacklist results -/

/-- C8.  A per-zone blacklist result is `False` exactly on NXDOMAIN, `True`
exactly on a successful answer, and the third value `None` on every other
outcome (NoAnswer, timeout, SERVFAIL / malformed responses) — never coerced
to `False`; `check_ip` records exactly this tri-state per configured zone. -/
theorem blacklist_tristate :
    (∀ o, check_single_blacklist o = some false ↔ o = DnsOutcome.nxdomain) ∧
    (∀ o, check_single_blacklist o = some true ↔ o = DnsOutcome.answer) ∧
    (∀ o, o ≠ DnsOutcome.nxdomain → o ≠ DnsOutcome.answer →
      check_single_blacklist o = none) ∧
    (∀ (outcomes : String → DnsOutcome) (zone name : String),
      (zone, name) ∈ BLACKLISTS →
      (name, check_single_blacklist (outcomes zone)) ∈ check_ip true outcomes) := by
  refine ⟨?_, ?_, ?_, ?_⟩
  · intro o; cases o <;> simp [check_single_blacklist]
  · intro o; cases o <;> simp [check_single_blacklist]
  · intro o h1 h2; cases o <;> simp_all [check_single_blacklist]
  · intro outcomes zone name hm
    unfold check_ip
    rw [if_pos rfl]
    exact List.mem_map_of_mem _ hm

/-- C8 witness: a timeout is reported as the indeterminate third value. -/
theorem blacklist_tristate_witness :
    (DnsOutcome.timeout ≠ DnsOutcome.nxdomain ∧ DnsOutcome.timeout ≠ DnsOutcome.answer) ∧
    check_single_blacklist DnsOutcome.timeout = none :=
  ⟨⟨by decide, by decide⟩,
    blacklist_tristate.2.2.1 DnsOutcome.timeout (by decide) (by decide)⟩

/-! ## Claim C9: expired cache entries are never served -/

/-- C9.  A cache entry whose age `now - cached_at` is at least the
hard-coded 7-day expiry is never returned: the cached read yields `None` and
`get_ip_info` proceeds to a fresh lookup. -/
theorem cache_expiry_never_returned (now cachedAt : ℚ) (d : GeoData)
    (h : cacheExpirySeconds ≤ now - cachedAt) :
    get_cached_ip_info now (some (cachedAt, d)) = none ∧
    get_ip_info_route true false now (some (cachedAt, d)) = IpLookupStep.freshLookup := by
  have hx : ¬ now - cachedAt < cacheExpirySeconds := not_lt.mpr h
  have h1 : get_cached_ip_info now (some (cachedAt, d)) = none := by
    show (if now - cachedAt < cacheExpirySeconds then some d else none) = none
    rw [if_neg hx]
  refine ⟨h1, ?_⟩
  simp [get_ip_info_route, h1]

/-- C9 witness: an entry exactly 7 days old is a miss. -/
theorem cache_expiry_never_returned_witness :
    (cacheExpirySeconds ≤ (604800 : ℚ) - 0) ∧
    get_cached_ip_info 604800 (some (0, [("ip", "x")])) = none :=
  ⟨by norm_num [cacheExpirySeconds],
    (cache_expiry_never_returned 604800 0 [("ip", "x")]
      (by norm_num [cacheExpirySeconds])).1⟩

/-- C2 witness: a concrete two-header block yields hops numbered 1, 2. -/
theorem relay_hop_numbering_contiguous_witness :
    (process_relays ⟨fun _ => none, fun _ => ""⟩
        [("Received", "a; x"), ("Received", "b; y")]).map Relay.hop =
      List.range' 1 2 :=
  (relay_hop_numbering_contiguous ⟨fun _ => none, fun _ => ""⟩
    [("Received", "a; x"), ("Received", "b; y")]).2
